import Mathlib

/-!
# Verification of the autosolver scan orchestrator

Shallow embedding of the `junbbbb/autosolver` repository (TypeScript/React):

* `src/types.ts` — the `ScanResult` data model and the `App` orchestrator
  (`performScan`, `handleToggle`, the countdown interval and the periodic
  scan interval).
* `src/services/geminiService.ts` — the Inference Client variant imported by
  the orchestrator (`solveProblemFromImage`, gemini-2.5-flash, 15 s timeout).
* `src/unnamed/part_000` — a second `solveProblemFromImage` variant
  (gemini-3-flash-preview, 45 s timeout) carrying answer-shape validation.
* `src/components/CameraView.tsx` — the Capture Source (`capture`).

JavaScript strings are modelled by Lean `String`/`List Char`; `Date.now()` by
a `Nat` clock carried in the state; the single-threaded event loop by an
explicit action list folded over a step function.  The asynchronous
`solveProblemFromImage` call is split into its synchronous start
(`performScan`) and its settle continuation (`performScanSettle`); since the
client catches every internal error and resolves, the client is a total
function from the remote service's behaviour (`ApiOutcome`) to a result.
-/

/-! ## Character and string helpers (JS regex / string primitives) -/

/-- JS `String.prototype.toUpperCase` restricted to ASCII letters (the only
case-carrying characters these pipelines meet): `a`-`z` maps to `A`-`Z`,
everything else is unchanged. -/
def upperChar (c : Char) : Char :=
  if 'a' ≤ c && c ≤ 'z' then Char.ofNat (c.toNat - 32) else c

/-- Substring test on character lists: JS `String.prototype.includes`. -/
def isSubList (pat : List Char) : List Char → Bool
  | [] => pat.isEmpty
  | c :: rest => pat.isPrefixOf (c :: rest) || isSubList pat rest

/-- JS `includes` on strings. -/
def containsSub (pat s : String) : Bool :=
  isSubList pat.toList s.toList

/-- The character class `[A-E1-5]` of part_000's regexes, case-insensitive
(`/i` flag): an explicit enumeration of the class. -/
def answerChar (c : Char) : Bool :=
  ['A', 'B', 'C', 'D', 'E', 'a', 'b', 'c', 'd', 'e',
   '1', '2', '3', '4', '5'].contains c

/-- The character class `[A-E1-5,\s]` (case-insensitive) used by part_000's
`isValidChars` regex. -/
def validChar (c : Char) : Bool :=
  answerChar c || c == ',' || c.isWhitespace

/-- Drop the `[:\s]*` part of part_000's prefix-stripping regexes. -/
def dropColonWs (l : List Char) : List Char :=
  l.dropWhile (fun c => c == ':' || c.isWhitespace)

/-- JS `replace(/^TAG[:\s]*/i, '')`: when the string starts with `TAG`
(case-insensitively), remove it together with the trailing colons and
whitespace; otherwise leave the string unchanged. -/
def stripTagCI (tag : List Char) (l : List Char) : List Char :=
  if (l.take tag.length).map upperChar == tag.map upperChar then
    dropColonWs (l.drop tag.length)
  else l

/-- JS `String.prototype.trim()` on character lists: drop leading and
trailing whitespace. -/
def jsTrim (l : List Char) : List Char :=
  ((l.dropWhile Char.isWhitespace).reverse.dropWhile Char.isWhitespace).reverse

/-- JS `replace(/\*\*/g, '')`: remove every (non-overlapping, left-to-right)
occurrence of `**`. -/
def removeDoubleStar : List Char → List Char
  | '*' :: '*' :: rest => removeDoubleStar rest
  | c :: rest => c :: removeDoubleStar rest
  | [] => []

/-- JS `replace(/\./g, '')`: remove every period. -/
def removePeriods (l : List Char) : List Char :=
  l.filter (fun c => c != '.')

/-- JS `String.prototype.split(pat)` for a non-empty separator, on character
lists; `fuel` (initialized to the list length by `jsSplit`) makes the
recursion structural. -/
def jsSplitAux (pat : List Char) : Nat → List Char → List (List Char)
  | _, [] => [[]]
  | 0, l => [l]
  | fuel + 1, c :: rest =>
    if pat.isPrefixOf (c :: rest) && !pat.isEmpty then
      [] :: jsSplitAux pat fuel ((c :: rest).drop pat.length)
    else
      match jsSplitAux pat fuel rest with
      | [] => [[c]]
      | g :: gs => (c :: g) :: gs

/-- JS `String.prototype.split(pat)` (non-empty `pat`). -/
def jsSplit (pat l : List Char) : List (List Char) :=
  jsSplitAux pat l.length l

/-- JS `String.prototype.split(',')` on character lists. -/
def splitComma : List Char → List (List Char)
  | [] => [[]]
  | c :: rest =>
    if c == ',' then [] :: splitComma rest
    else
      match splitComma rest with
      | [] => [[c]]
      | g :: gs => (c :: g) :: gs

/-- JS `Array.prototype.join(', ')` on character lists. -/
def joinCS : List (List Char) → List Char
  | [] => []
  | [g] => g
  | g :: gs => g ++ ',' :: ' ' :: joinCS gs

/-! ## The Inference Client (`src/services/geminiService.ts`)

`solveProblemFromImage` races the API call against a timeout and catches
every rejection, so from the orchestrator's point of view its behaviour is a
total function of what the remote service did.  The remote behaviour is one
of: the call resolved with a (possibly absent/empty) `response.text`, the
call rejected with an error message, or the 15 s timeout fired first. -/

/-- Behaviour of the remote inference service for one call, as observed at
the `Promise.race` in `solveProblemFromImage`. -/
inductive ApiOutcome where
  | success (responseText : Option String)
  | apiError (msg : Option String)
  | timeout
deriving DecidableEq

/-- `true` on the outcomes in which the inference call failed (rejection or
timeout), i.e. the ones taking the `catch` branch of the client. -/
def ApiOutcome.isFailure : ApiOutcome → Bool
  | .success _ => false
  | _ => true

/-- The resolved shape `{ text, reasoning, sources }` of
`solveProblemFromImage` (both variants). -/
structure SolveResult where
  text : String
  reasoning : String
  sources : List (String × String)
deriving DecidableEq

/-- geminiService.ts line 88-94: `error.message || "알 수 없는 오류"`, then
the `SAFETY` substitution. -/
def normalizeErrorMessage (msg : Option String) : String :=
  let m := match msg with
    | some t => if t = "" then "알 수 없는 오류" else t
    | none => "알 수 없는 오류"
  if containsSub "SAFETY" m then "콘텐츠 보안 정책에 의해 차단되었습니다." else m

/-- geminiService.ts line 77: `response.text || "분석 결과를 찾을 수 없습니다."`
(JS `||` treats the empty string as falsy). -/
def fullTextOf (responseText : Option String) : String :=
  match responseText with
  | some t => if t = "" then "분석 결과를 찾을 수 없습니다." else t
  | none => "분석 결과를 찾을 수 없습니다."

/-- geminiService.ts lines 78-83: answer part of the raw output — split on
`---SPLIT---`, take part 0, trim, strip markdown bold markers and periods,
trim.  No shape validation happens in this variant. -/
def geminiAnswer (fullText : String) : String :=
  let parts := jsSplit "---SPLIT---".toList fullText.toList
  String.mk (jsTrim (removePeriods (removeDoubleStar (jsTrim (parts.headD [])))))

/-- geminiService.ts line 85: the reasoning part of the raw output. -/
def geminiReasoning (fullText : String) : String :=
  let parts := jsSplit "---SPLIT---".toList fullText.toList
  if parts.length > 1 then String.mk (jsTrim (parts.getD 1 []))
  else "상세 풀이를 생성하지 못했습니다."

/-- geminiService.ts `solveProblemFromImage`: a total function — every
internal failure (rejection or timeout) is caught and converted into a
resolved result with the `"Error"` sentinel text; the timeout rejects with
the fixed message `"응답 시간이 초과되었습니다."` and flows into the same
`catch`. -/
def solveProblemFromImage (o : ApiOutcome) : SolveResult :=
  match o with
  | .success rt =>
      { text := geminiAnswer (fullTextOf rt)
        reasoning := geminiReasoning (fullTextOf rt)
        sources := [] }
  | .apiError msg =>
      { text := "Error"
        reasoning := "분석 실패: " ++ normalizeErrorMessage msg
        sources := [] }
  | .timeout =>
      { text := "Error"
        reasoning := "분석 실패: " ++ normalizeErrorMessage (some "응답 시간이 초과되었습니다.")
        sources := [] }

/-! ## The part_000 Inference Client variant (answer validation)

`src/unnamed/part_000` lines 74-108: after the same split/trim/`**` cleanup
it additionally strips `정답:`/`Answer:` prefixes and then validates the
answer shape: `UNKNOWN` passthrough; the `/^[A-E1-5,\s]+$/i` + length ≤ 15
check with comma normalization; a `/^([A-E1-5])(\s|$)/i` single-character
rescue; and an `"ERROR"` sentinel fallback. -/

/-- part_000 lines 76-80: cleaned answer text before validation. -/
def part000RawText (fullText : String) : String :=
  let parts := jsSplit "---SPLIT---".toList fullText.toList
  let t1 := removeDoubleStar (jsTrim (parts.headD []))
  String.mk (jsTrim (stripTagCI "Answer".toList (stripTagCI "정답".toList t1)))

/-- part_000 lines 97-100: `text.match(/^([A-E1-5])(\s|$)/i)`, returning the
rescued uppercased single answer character when the match succeeds. -/
def rescueMatch (l : List Char) : Option Char :=
  match l with
  | [] => none
  | c :: rest =>
    if answerChar c then
      match rest with
      | [] => some (upperChar c)
      | d :: _ => if d.isWhitespace then some (upperChar c) else none
    else none

/-- part_000 line 105: `text.toUpperCase().replace(/\s+/g,'')
.split(',').filter(Boolean).join(', ')`. -/
def normalizeAnswer (l : List Char) : List Char :=
  joinCS (((splitComma ((l.map upperChar).filter
    (fun c => !c.isWhitespace)))).filter (fun g => !g.isEmpty))

/-- part_000 lines 74-108: the full answer-validation pipeline of the second
`solveProblemFromImage` variant, from the raw model output to the value
stored as the answer text. -/
def part000Answer (fullText : String) : String :=
  let text := part000RawText fullText
  let l := text.toList
  let upperText := l.map upperChar
  if isSubList "UNKNOWN".toList upperText then "UNKNOWN"
  else
    let isValidChars := !l.isEmpty && l.all validChar
    if isValidChars && decide (l.length ≤ 15) then
      String.mk (normalizeAnswer l)
    else
      match rescueMatch l with
      | some c => String.mk [c]
      | none => "ERROR"

/-- The uppercase answer alphabet `A`-`E`, `1`-`5` and the comma, i.e. the
characters a normalized part_000 answer may consist of (besides the joining
space). -/
def upperValidChar (c : Char) : Bool :=
  ['A', 'B', 'C', 'D', 'E', '1', '2', '3', '4', '5', ','].contains c

/-- Characters allowed in a validated short-form answer: the uppercase
answer alphabet plus the `", "` separator characters. -/
def allowedOutChar (c : Char) : Bool :=
  upperValidChar c || c == ' '

/-! ## The data model (`src/types.ts`, `ScanResult`) -/

/-- `src/types.ts` `ScanResult`: one history entry per scan attempt.
`id` is `Date.now().toString()` and `timestamp` is `Date.now()`; both are
modelled as the `Nat` value of the clock at creation.  A record is *pending*
while `loading = true`; the optional `error` field is only ever set by the
orchestrator's rejection branch. -/
structure ScanResult where
  id : Nat
  timestamp : Nat
  imageUrl : String
  text : String
  reasoning : String
  sources : List (String × String)
  loading : Bool
  error : Option String
deriving DecidableEq

/-- The spec's `status` field of a `ScanRecord`, read off a `ScanResult` the
way the UI does (`ResultCard`): `loading` renders the pending spinner, a set
`error` field renders the failure badge, anything else is a completed
answer. -/
inductive Status where
  | pending
  | complete
  | failed
deriving DecidableEq

/-- Status of a `ScanResult` record. -/
def statusOf (r : ScanResult) : Status :=
  if r.loading then .pending
  else if r.error.isSome then .failed
  else .complete

/-! ## The Scan Orchestrator (`src/types.ts`, `App`)

The orchestrator's mutable state: `isActive`, the `results` history, the
cosmetic `timeUntilNextScan` countdown, the two `setInterval` handles
(carried with their periods), the outstanding `setTimeout(performScan, 1500)`
stabilization callbacks (never cancelled by the code, hence a list of
delays), the `isProcessingRef` lock, and the `Date.now()` clock.  `inflight`
records the id of the scan whose `solveProblemFromImage` call has started
but not yet settled; in the code it is implicit in the pending continuation
of the `await`. -/

/-- The 30000 ms `AUTO_SCAN_INTERVAL_MS` of `src/types.ts`. -/
def AUTO_SCAN_INTERVAL_MS : Nat := 30000

/-- The 1500 ms camera stabilization delay in `handleToggle`. -/
def STABILIZE_DELAY_MS : Nat := 1500

/-- The 1000 ms countdown interval period. -/
def COUNTDOWN_TICK_MS : Nat := 1000

/-- The 15000 ms timeout bound of the geminiService.ts Inference Client. -/
def GEMINI_TIMEOUT_MS : Nat := 15000

/-- Orchestrator state (the `App` component of `src/types.ts`). -/
structure AppState where
  isActive : Bool
  results : List ScanResult
  timeUntilNextScan : Nat
  scanTimer : Option Nat
  tickTimer : Option Nat
  pendingStab : List Nat
  locked : Bool
  inflight : Option Nat
  now : Nat
deriving DecidableEq

/-- The initial orchestrator state (`useState` initializers). -/
def initState : AppState :=
  { isActive := false
    results := []
    timeUntilNextScan := AUTO_SCAN_INTERVAL_MS
    scanTimer := none
    tickTimer := none
    pendingStab := []
    locked := false
    inflight := none
    now := 0 }

/-- Observable events of one `performScan` invocation, in the order the code
performs them. -/
inductive Ev where
  | captureCall
  | lockSet
  | insertRecord (id : Nat)
  | resetCountdown
  | invokeClient (id : Nat)
deriving DecidableEq

/-- Models `CameraView`'s `capture()` (src/components/CameraView.tsx lines
17-38): it returns `null` exactly when one of the refs or the 2d context is
missing; otherwise it returns the current canvas data URL.  Note that it
does not consult `isActive` — the refs stay bound while the camera is
stopped. -/
def captureModel (videoRefSet canvasRefSet ctxOk : Bool)
    (dataUrl : String) : Option String :=
  if videoRefSet && canvasRefSet && ctxOk then some dataUrl else none

/-- The fresh `ScanResult` of src/types.ts lines 53-62: `id` and `timestamp`
are both `Date.now()`, the answer fields are empty, `loading` is `true` and
`error` is absent. -/
def newScanResult (t : Nat) (img : String) : ScanResult :=
  { id := t
    timestamp := t
    imageUrl := img
    text := ""
    reasoning := ""
    sources := []
    loading := true
    error := none }

/-- `performScan` (src/types.ts lines 39-68), the synchronous part up to and
including the `solveProblemFromImage` invocation.  `cam` is the environment:
`none` when `cameraRef.current` is `null`, otherwise `some` of what
`capture()` returned, with a falsy result (`null`) modelled as `none`.
Returns the updated state and the event trace.

Code order: the `cameraRef` guard; the `isProcessingRef` lock guard (a
logged no-op); **capture first, then lock**; create the record with
`loading: true`, prepend it, reset the countdown, invoke the client. -/
def performScan (s : AppState) (cam : Option (Option String)) :
    AppState × List Ev :=
  match cam with
  | none => (s, [])
  | some frame =>
    if s.locked then (s, [])
    else
      match frame with
      | none => (s, [Ev.captureCall])
      | some img =>
        let newId := s.now
        ({ s with
            locked := true
            results := newScanResult s.now img :: s.results
            timeUntilNextScan := AUTO_SCAN_INTERVAL_MS
            inflight := some newId },
         [Ev.captureCall, Ev.lockSet, Ev.insertRecord newId,
          Ev.resetCountdown, Ev.invokeClient newId])

/-- The in-place patch of src/types.ts lines 73-77: `r.id === newId` selects
the record, and only the mutable fields `loading`, `text`, `reasoning`,
`sources` are replaced. -/
def patchResult (id : Nat) (res : SolveResult) (r : ScanResult) : ScanResult :=
  if r.id == id then
    { r with
        loading := false
        text := res.text
        reasoning := res.reasoning
        sources := res.sources }
  else r

/-- The continuation of `performScan` after `solveProblemFromImage` settles
(src/types.ts lines 70-87): patch the record matched by id in place and
release the lock in the `finally` block — one atomic step of the event loop.
Since `solveProblemFromImage` is total (it never rejects), only the `try`
branch is reachable; the `catch` branch, which would set `error`, is dead.
When no call is in flight there is no continuation to run. -/
def performScanSettle (s : AppState) (out : ApiOutcome) : AppState :=
  match s.inflight with
  | none => s
  | some id =>
    { s with
        results := s.results.map (patchResult id (solveProblemFromImage out))
        locked := false
        inflight := none }

/-- `handleToggle` (src/types.ts lines 124-132) together with the two
`useEffect` blocks keyed on `isActive` (lines 90-122), as one step of the
event loop: on the transition to active, schedule one stabilization scan
after 1.5 s, reset the countdown, and start both intervals (scan period
30000 ms, countdown period 1000 ms); on the transition to inactive, clear
both intervals and reset the countdown.  The stabilization timeout is not
cancelled on deactivation. -/
def handleToggle (s : AppState) : AppState :=
  if !s.isActive then
    { s with
        isActive := true
        pendingStab := s.pendingStab ++ [STABILIZE_DELAY_MS]
        timeUntilNextScan := AUTO_SCAN_INTERVAL_MS
        scanTimer := some AUTO_SCAN_INTERVAL_MS
        tickTimer := some COUNTDOWN_TICK_MS }
  else
    { s with
        isActive := false
        scanTimer := none
        tickTimer := none
        timeUntilNextScan := AUTO_SCAN_INTERVAL_MS }

/-- One firing of the countdown interval callback (src/types.ts lines
92-99): `next = prev - 1000; if (next <= 0) return P; return next`.  The
callback only exists while the interval is set. -/
def countdownTick (s : AppState) : AppState :=
  match s.tickTimer with
  | none => s
  | some _ =>
    { s with
        timeUntilNextScan :=
          if s.timeUntilNextScan ≤ 1000 then AUTO_SCAN_INTERVAL_MS
          else s.timeUntilNextScan - 1000 }

/-- Events of the single-threaded event loop: a toggle click, a scan trigger
(manual button or periodic interval) with the environment's capture answer,
the firing of an outstanding stabilization timeout, the settling of the
in-flight inference call, a countdown tick, and the passage of time. -/
inductive Act where
  | toggle
  | scan (cam : Option (Option String))
  | stabFire (cam : Option (Option String))
  | settle (out : ApiOutcome)
  | tick
  | elapse (d : Nat)

/-- The firing of an outstanding stabilization timeout: one scheduled
callback is consumed and runs `performScan`; with none outstanding nothing
happens. -/
def stabFireStep (s : AppState) (cam : Option (Option String)) : AppState :=
  match s.pendingStab with
  | [] => s
  | _ :: rest => (performScan { s with pendingStab := rest } cam).1

/-- One step of the orchestrator event loop. -/
def stepA (s : AppState) : Act → AppState
  | .toggle => handleToggle s
  | .scan cam => (performScan s cam).1
  | .stabFire cam => stabFireStep s cam
  | .settle out => performScanSettle s out
  | .tick => countdownTick s
  | .elapse d => { s with now := s.now + d }

/-- Run the event loop over a list of actions. -/
def run (s : AppState) (acts : List Act) : AppState :=
  acts.foldl stepA s

/-- `spacedFrom gap acts = true` when, along `acts`, any two scan triggers
(`scan` or `stabFire`) are separated by a positive passage of time — i.e.
`Date.now()` strictly advances between scan starts.  `gap = true` records
that a scan has happened since the last positive `elapse`. -/
def spacedFrom : Bool → List Act → Bool
  | _, [] => true
  | needGap, Act.scan _ :: rest => !needGap && spacedFrom true rest
  | needGap, Act.stabFire _ :: rest => !needGap && spacedFrom true rest
  | needGap, Act.elapse d :: rest => spacedFrom (needGap && d == 0) rest
  | needGap, _ :: rest => spacedFrom needGap rest

/-- `precedesB l a b`: some occurrence of `a` in `l` is strictly followed by
an occurrence of `b`. -/
def precedesB (l : List Ev) (a b : Ev) : Bool :=
  match l with
  | [] => false
  | x :: xs => (x == a && xs.contains b) || precedesB xs a b

/-! ## Reachability invariants of the orchestrator -/

/-- The core invariant of reachable orchestrator states: the lock mirrors
the in-flight call; there is exactly one pending record while locked and
none otherwise; every pending record is the in-flight one; the rejection
branch never ran (`error` is never set); the history is sorted newest-first
by `createdAt`; timestamps never exceed the clock; and `id` equals the
creation timestamp. -/
def OrchInv (s : AppState) : Prop :=
  s.locked = s.inflight.isSome ∧
  s.results.countP (fun r => r.loading) = (if s.locked then 1 else 0) ∧
  (∀ r ∈ s.results, r.loading = true → s.inflight = some r.id) ∧
  (∀ r ∈ s.results, r.error = none) ∧
  List.Pairwise (fun a b => b.timestamp ≤ a.timestamp) s.results ∧
  (∀ r ∈ s.results, r.timestamp ≤ s.now) ∧
  (∀ r ∈ s.results, r.id = r.timestamp)

theorem inv_init : OrchInv initState := by
  refine ⟨rfl, rfl, ?_, ?_, ?_, ?_, ?_⟩ <;> simp [initState]

theorem patchResult_id (id : Nat) (res : SolveResult) (r : ScanResult) :
    (patchResult id res r).id = r.id := by
  unfold patchResult; split <;> rfl

theorem patchResult_timestamp (id : Nat) (res : SolveResult) (r : ScanResult) :
    (patchResult id res r).timestamp = r.timestamp := by
  unfold patchResult; split <;> rfl

theorem patchResult_imageUrl (id : Nat) (res : SolveResult) (r : ScanResult) :
    (patchResult id res r).imageUrl = r.imageUrl := by
  unfold patchResult; split <;> rfl

theorem patchResult_error (id : Nat) (res : SolveResult) (r : ScanResult) :
    (patchResult id res r).error = r.error := by
  unfold patchResult; split <;> rfl

theorem patchResult_of_ne (id : Nat) (res : SolveResult) (r : ScanResult)
    (h : r.id ≠ id) : patchResult id res r = r := by
  unfold patchResult
  simp [h]

theorem patchResult_of_eq (id : Nat) (res : SolveResult) (r : ScanResult)
    (h : r.id = id) :
    patchResult id res r =
      { r with
          loading := false
          text := res.text
          reasoning := res.reasoning
          sources := res.sources } := by
  unfold patchResult
  simp [h]

theorem handleToggle_results (s : AppState) :
    (handleToggle s).results = s.results := by
  unfold handleToggle; split <;> rfl

theorem handleToggle_locked (s : AppState) :
    (handleToggle s).locked = s.locked := by
  unfold handleToggle; split <;> rfl

theorem handleToggle_inflight (s : AppState) :
    (handleToggle s).inflight = s.inflight := by
  unfold handleToggle; split <;> rfl

theorem handleToggle_now (s : AppState) : (handleToggle s).now = s.now := by
  unfold handleToggle; split <;> rfl

theorem countdownTick_results (s : AppState) :
    (countdownTick s).results = s.results := by
  unfold countdownTick; cases s.tickTimer <;> rfl

theorem countdownTick_locked (s : AppState) :
    (countdownTick s).locked = s.locked := by
  unfold countdownTick; cases s.tickTimer <;> rfl

theorem countdownTick_inflight (s : AppState) :
    (countdownTick s).inflight = s.inflight := by
  unfold countdownTick; cases s.tickTimer <;> rfl

theorem countdownTick_now (s : AppState) :
    (countdownTick s).now = s.now := by
  unfold countdownTick; cases s.tickTimer <;> rfl

/-- Case analysis of `performScan`: either the state is returned untouched
(missing camera ref, lock held, or empty frame), or the lock was free, a
frame `img` was captured, and exactly the fresh record is prepended. -/
theorem performScan_cases (s : AppState) (cam : Option (Option String)) :
    (performScan s cam).1 = s ∨
    (s.locked = false ∧ ∃ img,
      (performScan s cam).1 =
        { s with
            locked := true
            results := newScanResult s.now img :: s.results
            timeUntilNextScan := AUTO_SCAN_INTERVAL_MS
            inflight := some s.now }) := by
  match cam with
  | none => exact Or.inl rfl
  | some frame =>
    cases hl : s.locked with
    | true => left; simp [performScan, hl]
    | false =>
      match frame with
      | none => left; simp [performScan, hl]
      | some img =>
        right
        exact ⟨rfl, img, by simp [performScan, hl]⟩

/-- The history after a stabilization firing: unchanged, or exactly the
fresh record prepended. -/
theorem stabFireStep_results_cases (s : AppState) (cam : Option (Option String)) :
    (stabFireStep s cam).results = s.results ∨
    ∃ img, (stabFireStep s cam).results = newScanResult s.now img :: s.results := by
  unfold stabFireStep
  cases s.pendingStab with
  | nil => exact Or.inl rfl
  | cons d rest =>
    rcases performScan_cases { s with pendingStab := rest } cam
      with heq | ⟨-, img, heq⟩
    · refine Or.inl ?_
      show (performScan { s with pendingStab := rest } cam).1.results = s.results
      rw [heq]
    · refine Or.inr ⟨img, ?_⟩
      show (performScan { s with pendingStab := rest } cam).1.results =
        newScanResult s.now img :: s.results
      rw [heq]

theorem inv_performScan (s : AppState) (cam : Option (Option String))
    (h : OrchInv s) : OrchInv (performScan s cam).1 := by
  rcases performScan_cases s cam with heq | ⟨hl, img, heq⟩
  · rw [heq]; exact h
  · obtain ⟨hA, hB, hC, hD, hE, hF, hG⟩ := h
    rw [heq]
    have hinfl : s.inflight = none := by
      cases hin : s.inflight with
      | none => rfl
      | some id => rw [hl, hin] at hA; simp at hA
    have hnopending : ∀ r ∈ s.results, ¬(r.loading = true) := by
      have hzero : s.results.countP (fun r => r.loading) = 0 := by
        rw [hB, hl]; rfl
      intro r hr
      have := List.countP_eq_zero.mp hzero r hr
      simpa using this
    refine ⟨rfl, ?_, ?_, ?_, ?_, ?_, ?_⟩
    · simp only [List.countP_cons]
      have hzero : s.results.countP (fun r => r.loading) = 0 := by
        rw [hB, hl]; rfl
      simp [hzero, newScanResult]
    · intro r hr hload
      rcases List.mem_cons.mp hr with rfl | hmem
      · rfl
      · exact absurd hload (hnopending r hmem)
    · intro r hr
      rcases List.mem_cons.mp hr with rfl | hmem
      · rfl
      · exact hD r hmem
    · exact List.pairwise_cons.mpr
        ⟨fun r hr => by simpa [newScanResult] using hF r hr, hE⟩
    · intro r hr
      rcases List.mem_cons.mp hr with rfl | hmem
      · simp [newScanResult]
      · exact hF r hmem
    · intro r hr
      rcases List.mem_cons.mp hr with rfl | hmem
      · rfl
      · exact hG r hmem

theorem inv_settle (s : AppState) (out : ApiOutcome) (h : OrchInv s) :
    OrchInv (performScanSettle s out) := by
  obtain ⟨hA, hB, hC, hD, hE, hF, hG⟩ := h
  unfold performScanSettle
  cases hin : s.inflight with
  | none => exact ⟨hA, hB, hC, hD, hE, hF, hG⟩
  | some id =>
    have hnone : ∀ r' ∈ s.results.map (patchResult id (solveProblemFromImage out)),
        ¬(r'.loading = true) := by
      intro r' hr'
      rcases List.mem_map.mp hr' with ⟨r, hr, rfl⟩
      by_cases hid : r.id = id
      · rw [patchResult_of_eq _ _ _ hid]; simp
      · rw [patchResult_of_ne _ _ _ hid]
        intro hload
        have := hC r hr hload
        rw [hin] at this
        exact hid (by injection this with h2; exact h2.symm)
    refine ⟨rfl, ?_, ?_, ?_, ?_, ?_, ?_⟩
    · simp only [if_neg (by simp : ¬(false = true))]
      exact List.countP_eq_zero.mpr (by
        intro r' hr'
        simpa using hnone r' hr')
    · intro r' hr' hload
      exact absurd hload (hnone r' hr')
    · intro r' hr'
      rcases List.mem_map.mp hr' with ⟨r, hr, rfl⟩
      rw [patchResult_error]
      exact hD r hr
    · exact hE.map _ (fun a b hab => by
        rw [patchResult_timestamp, patchResult_timestamp]; exact hab)
    · intro r' hr'
      rcases List.mem_map.mp hr' with ⟨r, hr, rfl⟩
      rw [patchResult_timestamp]
      exact hF r hr
    · intro r' hr'
      rcases List.mem_map.mp hr' with ⟨r, hr, rfl⟩
      rw [patchResult_id, patchResult_timestamp]
      exact hG r hr

theorem inv_step (s : AppState) (a : Act) (h : OrchInv s) : OrchInv (stepA s a) := by
  cases a with
  | toggle =>
    obtain ⟨hA, hB, hC, hD, hE, hF, hG⟩ := h
    show OrchInv (handleToggle s)
    rw [OrchInv, handleToggle_results, handleToggle_locked, handleToggle_inflight,
      handleToggle_now]
    exact ⟨hA, hB, hC, hD, hE, hF, hG⟩
  | scan cam => exact inv_performScan s cam h
  | stabFire cam =>
    show OrchInv (stabFireStep s cam)
    unfold stabFireStep
    cases s.pendingStab with
    | nil => exact h
    | cons d rest => exact inv_performScan _ cam h
  | settle out => exact inv_settle s out h
  | tick =>
    obtain ⟨hA, hB, hC, hD, hE, hF, hG⟩ := h
    show OrchInv (countdownTick s)
    rw [OrchInv, countdownTick_results, countdownTick_locked,
      countdownTick_inflight, countdownTick_now]
    exact ⟨hA, hB, hC, hD, hE, hF, hG⟩
  | elapse d =>
    obtain ⟨hA, hB, hC, hD, hE, hF, hG⟩ := h
    exact ⟨hA, hB, hC, hD, hE, fun r hr => Nat.le_trans (hF r hr) (Nat.le_add_right _ _), hG⟩

theorem inv_run (acts : List Act) (s : AppState) (h : OrchInv s) :
    OrchInv (run s acts) := by
  induction acts generalizing s with
  | nil => exact h
  | cons a rest ih => exact ih (stepA s a) (inv_step s a h)

/-! ## Strict id ordering under a strictly advancing clock -/

/-- Strengthened invariant for runs whose scan starts are separated by a
positive passage of time: besides `OrchInv`, the record ids are strictly
decreasing along the history (newest first), and — unless a scan has already
happened at the current clock value (`gap = true`) — all ids are strictly
below the clock. -/
def StrictInv (gap : Bool) (s : AppState) : Prop :=
  OrchInv s ∧
  List.Pairwise (fun a b => b.id < a.id) s.results ∧
  (gap = false → ∀ r ∈ s.results, r.id < s.now)

theorem strictInv_ids_le (s : AppState) (h : OrchInv s) :
    ∀ r ∈ s.results, r.id ≤ s.now := by
  obtain ⟨-, -, -, -, -, hF, hG⟩ := h
  intro r hr
  rw [hG r hr]
  exact hF r hr

theorem strictInv_performScan (gap : Bool) (s : AppState)
    (cam : Option (Option String)) (h : StrictInv gap s) (hgap : gap = false) :
    StrictInv true (performScan s cam).1 := by
  obtain ⟨hinv, hp, hlt⟩ := h
  have hinv' := inv_performScan s cam hinv
  rcases performScan_cases s cam with heq | ⟨hl, img, heq⟩
  · rw [heq]
    exact ⟨hinv, hp, by simp⟩
  · rw [heq] at hinv' ⊢
    refine ⟨hinv', ?_, by simp⟩
    exact List.pairwise_cons.mpr
      ⟨fun r hr => by simpa [newScanResult] using hlt hgap r hr, hp⟩


theorem strictInv_stabFire (gap : Bool) (s : AppState)
    (cam : Option (Option String)) (h : StrictInv gap s) (hgap : gap = false) :
    StrictInv true (stepA s (.stabFire cam)) := by
  show StrictInv true (stabFireStep s cam)
  unfold stabFireStep
  cases s.pendingStab with
  | nil =>
    obtain ⟨hinv, hp, hlt⟩ := h
    exact ⟨hinv, hp, by simp⟩
  | cons d rest =>
    exact strictInv_performScan gap { s with pendingStab := rest } cam h hgap

theorem strictInv_settle (gap : Bool) (s : AppState) (out : ApiOutcome)
    (h : StrictInv gap s) : StrictInv gap (performScanSettle s out) := by
  obtain ⟨hinv, hp, hlt⟩ := h
  have hinv' := inv_settle s out hinv
  refine ⟨hinv', ?_, ?_⟩
  · unfold performScanSettle
    cases hin : s.inflight with
    | none => exact hp
    | some id =>
      exact hp.map _ (fun a b hab => by
        rw [patchResult_id, patchResult_id]; exact hab)
  · unfold performScanSettle
    cases hin : s.inflight with
    | none => exact hlt
    | some id =>
      intro hg r' hr'
      rcases List.mem_map.mp hr' with ⟨r, hr, rfl⟩
      rw [patchResult_id]
      exact hlt hg r hr

theorem strictInv_toggle (gap : Bool) (s : AppState) (h : StrictInv gap s) :
    StrictInv gap (handleToggle s) := by
  obtain ⟨hinv, hp, hlt⟩ := h
  refine ⟨inv_step s .toggle hinv, ?_, ?_⟩
  · rw [handleToggle_results]; exact hp
  · rw [handleToggle_results, handleToggle_now]; exact hlt

theorem strictInv_tick (gap : Bool) (s : AppState) (h : StrictInv gap s) :
    StrictInv gap (countdownTick s) := by
  obtain ⟨hinv, hp, hlt⟩ := h
  refine ⟨inv_step s .tick hinv, ?_, ?_⟩
  · rw [countdownTick_results]; exact hp
  · rw [countdownTick_results, countdownTick_now]; exact hlt

theorem strictInv_elapse (gap : Bool) (s : AppState) (d : Nat)
    (h : StrictInv gap s) :
    StrictInv (gap && d == 0) { s with now := s.now + d } := by
  obtain ⟨hinv, hp, hlt⟩ := h
  refine ⟨⟨hinv.1, hinv.2.1, hinv.2.2.1, hinv.2.2.2.1, hinv.2.2.2.2.1,
    fun r hr => Nat.le_trans (hinv.2.2.2.2.2.1 r hr) (Nat.le_add_right _ _),
    hinv.2.2.2.2.2.2⟩, hp, ?_⟩
  intro hg r hr
  show r.id < s.now + d
  rcases Bool.and_eq_false_iff.mp hg with hg | hd
  · exact Nat.lt_of_lt_of_le (hlt hg r hr) (Nat.le_add_right _ _)
  · have hdpos : 0 < d := by
      rcases Nat.eq_zero_or_pos d with rfl | hpos
      · simp at hd
      · exact hpos
    have := strictInv_ids_le s hinv r hr
    omega

theorem strictInv_run (acts : List Act) :
    ∀ (gap : Bool) (s : AppState), StrictInv gap s →
      spacedFrom gap acts = true → ∃ g, StrictInv g (run s acts) := by
  induction acts with
  | nil => exact fun gap s h _ => ⟨gap, h⟩
  | cons a rest ih =>
    intro gap s h hsp
    cases a with
    | toggle =>
      exact ih gap (stepA s .toggle) (strictInv_toggle gap s h)
        (by simpa [spacedFrom] using hsp)
    | scan cam =>
      have hsp' := hsp
      simp only [spacedFrom, Bool.and_eq_true, Bool.not_eq_true'] at hsp'
      exact ih true (stepA s (.scan cam))
        (strictInv_performScan gap s cam h hsp'.1) hsp'.2
    | stabFire cam =>
      have hsp' := hsp
      simp only [spacedFrom, Bool.and_eq_true, Bool.not_eq_true'] at hsp'
      exact ih true (stepA s (.stabFire cam))
        (strictInv_stabFire gap s cam h hsp'.1) hsp'.2
    | settle out =>
      exact ih gap (stepA s (.settle out)) (strictInv_settle gap s out h)
        (by simpa [spacedFrom] using hsp)
    | tick =>
      exact ih gap (stepA s .tick) (strictInv_tick gap s h)
        (by simpa [spacedFrom] using hsp)
    | elapse d =>
      exact ih (gap && d == 0) (stepA s (.elapse d))
        (strictInv_elapse gap s d h)
        (by simpa [spacedFrom] using hsp)

/-- Strictly decreasing ids make the id a key: two history members with the
same id are the same record. -/
theorem pairwise_id_inj (l : List ScanResult)
    (hp : List.Pairwise (fun a b => b.id < a.id) l) :
    ∀ r ∈ l, ∀ r' ∈ l, r.id = r'.id → r = r' := by
  induction l with
  | nil => simp
  | cons a t ih =>
    obtain ⟨ha, ht⟩ := List.pairwise_cons.mp hp
    intro r hr r' hr' heq
    rcases List.mem_cons.mp hr with rfl | hmr
    · rcases List.mem_cons.mp hr' with rfl | hmr'
      · rfl
      · exact absurd heq (by have := ha r' hmr'; omega)
    · rcases List.mem_cons.mp hr' with rfl | hmr'
      · exact absurd heq (by have := ha r hmr; omega)
      · exact ih ht r hmr r' hmr' heq

/-- Under `OrchInv` and strictly decreasing ids, the in-flight id always
belongs to a pending record, so no finalized record matches it. -/
theorem finalized_id_ne_inflight (s : AppState) (hinv : OrchInv s)
    (hp : List.Pairwise (fun a b => b.id < a.id) s.results)
    (id : Nat) (hin : s.inflight = some id)
    (r : ScanResult) (hr : r ∈ s.results) (hfin : r.loading = false) :
    r.id ≠ id := by
  obtain ⟨hA, hB, hC, -, -, -, -⟩ := hinv
  have hlocked : s.locked = true := by rw [hA, hin]; rfl
  have hone : s.results.countP (fun r => r.loading) = 1 := by
    rw [hB, hlocked]
    simp
  have hex : ∃ r1 ∈ s.results, r1.loading = true := by
    have hpos : 0 < s.results.countP (fun r => r.loading) := by omega
    simpa using List.countP_pos_iff.mp hpos
  obtain ⟨r1, hr1, hload1⟩ := hex
  have hid1 : id = r1.id := by
    have := hC r1 hr1 hload1
    rw [hin] at this
    injection this
  intro heq
  have hrr : r = r1 := pairwise_id_inj s.results hp r hr r1 hr1 (by omega)
  rw [hrr, hload1] at hfin
  simp at hfin

/-- A finalized record survives any single further event-loop step as a
member, completely unchanged. -/
theorem finalized_frozen_step (s : AppState) (hinv : OrchInv s)
    (hp : List.Pairwise (fun a b => b.id < a.id) s.results) (a : Act) :
    ∀ r ∈ s.results, r.loading = false → r ∈ (stepA s a).results := by
  intro r hr hfin
  cases a with
  | toggle => rw [show (stepA s .toggle).results = s.results from
      handleToggle_results s]; exact hr
  | tick => rw [show (stepA s .tick).results = s.results from
      countdownTick_results s]; exact hr
  | elapse d => exact hr
  | scan cam =>
    rcases performScan_cases s cam with heq | ⟨-, img, heq⟩
    · show r ∈ (performScan s cam).1.results
      rw [heq]; exact hr
    · show r ∈ (performScan s cam).1.results
      rw [heq]; exact List.mem_cons_of_mem _ hr
  | stabFire cam =>
    show r ∈ (stabFireStep s cam).results
    rcases stabFireStep_results_cases s cam with heq | ⟨img, heq⟩
    · rw [heq]; exact hr
    · rw [heq]; exact List.mem_cons_of_mem _ hr
  | settle out =>
    show r ∈ (performScanSettle s out).results
    unfold performScanSettle
    cases hin : s.inflight with
    | none => exact hr
    | some id =>
      have hne := finalized_id_ne_inflight s hinv hp id hin r hr hfin
      have : patchResult id (solveProblemFromImage out) r = r :=
        patchResult_of_ne id _ r hne
      rw [← this]
      exact List.mem_map_of_mem _ hr

/-- Any record of the next state is an untouched old record, a fresh pending
record, or an old pending record finalized in place (same identity and
immutable fields, `loading` turned off). -/
theorem step_results_origin (s : AppState) (hinv : OrchInv s)
    (hp : List.Pairwise (fun a b => b.id < a.id) s.results) (a : Act) :
    ∀ r' ∈ (stepA s a).results,
      r' ∈ s.results ∨ r'.loading = true ∨
      ∃ r ∈ s.results, r.loading = true ∧ r'.loading = false ∧
        r'.id = r.id ∧ r'.timestamp = r.timestamp ∧
        r'.imageUrl = r.imageUrl ∧ r'.error = r.error := by
  intro r' hr'
  cases a with
  | toggle => rw [show (stepA s .toggle).results = s.results from
      handleToggle_results s] at hr'; exact Or.inl hr'
  | tick => rw [show (stepA s .tick).results = s.results from
      countdownTick_results s] at hr'; exact Or.inl hr'
  | elapse d => exact Or.inl hr'
  | scan cam =>
    have hr2 : r' ∈ (performScan s cam).1.results := hr'
    rcases performScan_cases s cam with heq | ⟨-, img, heq⟩
    · rw [heq] at hr2; exact Or.inl hr2
    · rw [heq] at hr2
      rcases List.mem_cons.mp hr2 with rfl | hmem
      · exact Or.inr (Or.inl rfl)
      · exact Or.inl hmem
  | stabFire cam =>
    have hr2 : r' ∈ (stabFireStep s cam).results := hr'
    rcases stabFireStep_results_cases s cam with heq | ⟨img, heq⟩
    · rw [heq] at hr2; exact Or.inl hr2
    · rw [heq] at hr2
      rcases List.mem_cons.mp hr2 with rfl | hmem
      · exact Or.inr (Or.inl rfl)
      · exact Or.inl hmem
  | settle out =>
    have hr2 : r' ∈ (performScanSettle s out).results := hr'
    unfold performScanSettle at hr2
    cases hin : s.inflight with
    | none => rw [hin] at hr2; exact Or.inl hr2
    | some id =>
      rw [hin] at hr2
      rcases List.mem_map.mp hr2 with ⟨r, hr, rfl⟩
      by_cases hid : r.id = id
      · cases hload : r.loading with
        | true =>
          refine Or.inr (Or.inr ⟨r, hr, hload, ?_⟩)
          rw [patchResult_of_eq _ _ _ hid]
          exact ⟨rfl, rfl, rfl, rfl, rfl⟩
        | false =>
          exact absurd hid
            (finalized_id_ne_inflight s hinv hp id hin r hr hload)
      · rw [patchResult_of_ne _ _ _ hid]
        exact Or.inl hr

/-! ## Helper lemmas for the claim theorems -/

theorem performScanSettle_eq (s : AppState) (out : ApiOutcome) (id : Nat)
    (hin : s.inflight = some id) :
    performScanSettle s out =
      { s with
          results := s.results.map (patchResult id (solveProblemFromImage out))
          locked := false
          inflight := none } := by
  unfold performScanSettle
  rw [hin]

theorem performScanSettle_immutable (s : AppState) (out : ApiOutcome) :
    (performScanSettle s out).results.map (fun r => (r.id, r.timestamp, r.imageUrl)) =
      s.results.map (fun r => (r.id, r.timestamp, r.imageUrl)) := by
  unfold performScanSettle
  cases s.inflight with
  | none => rfl
  | some id =>
    show (s.results.map (patchResult id (solveProblemFromImage out))).map _ = _
    rw [List.map_map]
    exact List.map_congr_left (fun r _ => by
      simp only [Function.comp_apply, patchResult_id, patchResult_timestamp,
        patchResult_imageUrl])

theorem performScanSettle_length (s : AppState) (out : ApiOutcome) :
    (performScanSettle s out).results.length = s.results.length := by
  unfold performScanSettle
  cases s.inflight with
  | none => rfl
  | some id => simp

theorem solve_failure_text (out : ApiOutcome) (h : out.isFailure = true) :
    (solveProblemFromImage out).text = "Error" := by
  cases out with
  | success rt => simp [ApiOutcome.isFailure] at h
  | apiError m => rfl
  | timeout => rfl

theorem append_ne_empty_left (a b : String) (ha : a.length ≠ 0) :
    a ++ b ≠ "" := by
  intro he
  have hl := congrArg String.length he
  rw [String.length_append] at hl
  simp only [String.length_empty] at hl
  omega

theorem solve_failure_reasoning_ne (out : ApiOutcome) (h : out.isFailure = true) :
    (solveProblemFromImage out).reasoning ≠ "" := by
  cases out with
  | success rt => simp [ApiOutcome.isFailure] at h
  | apiError m =>
    exact append_ne_empty_left "분석 실패: " (normalizeErrorMessage m) (by decide)
  | timeout =>
    exact append_ne_empty_left "분석 실패: "
      (normalizeErrorMessage (some "응답 시간이 초과되었습니다.")) (by decide)

/-! ## Claim theorems -/

/-- C1, counterexample: running one scan whose inference call exceeds the
timeout bound yields a record with `status = complete` — not `failed` — and
no `errorMessage` (`error = none`); only the lock release holds.  The
client's `catch` converts the timeout into a *resolved* result with answer
text `"Error"`, so the orchestrator's failure branch never runs. -/
theorem timeout_scan_record_not_failed :
    (run initState [Act.toggle, Act.scan (some (some "img")),
        Act.settle ApiOutcome.timeout]).results.map statusOf = [Status.complete] ∧
    (run initState [Act.toggle, Act.scan (some (some "img")),
        Act.settle ApiOutcome.timeout]).results.map (fun r => r.error) = [none] ∧
    (run initState [Act.toggle, Act.scan (some (some "img")),
        Act.settle ApiOutcome.timeout]).locked = false := by
  refine ⟨rfl, rfl, rfl⟩

/-- C1 (amended): when the inference call fails (rejection or timeout), the
matching `ScanRecord` is finalized with `loading = false`, answer text set
to the `"Error"` sentinel and a non-empty reasoning carrying the failure
message, while the `error` field stays unset (so the record's status is
`complete`, not `failed`), and the lock returns to `false`. -/
theorem inference_failure_yields_error_sentinel_record
    (s : AppState) (id : Nat) (out : ApiOutcome)
    (hfail : out.isFailure = true) (hin : s.inflight = some id)
    (hclean : ∀ r ∈ s.results, r.error = none) :
    (performScanSettle s out).locked = false ∧
    ∀ r ∈ (performScanSettle s out).results, r.id = id →
      r.loading = false ∧ r.text = "Error" ∧ r.error = none ∧
      statusOf r = Status.complete ∧ r.reasoning ≠ "" := by
  rw [performScanSettle_eq s out id hin]
  refine ⟨rfl, ?_⟩
  intro r hr hid
  rcases List.mem_map.mp hr with ⟨r0, hr0, rfl⟩
  by_cases h0 : r0.id = id
  · rw [patchResult_of_eq _ _ _ h0]
    refine ⟨rfl, solve_failure_text out hfail, hclean r0 hr0, ?_,
      solve_failure_reasoning_ne out hfail⟩
    show statusOf _ = Status.complete
    unfold statusOf
    simp [hclean r0 hr0]
  · rw [patchResult_of_ne _ _ _ h0] at hid ⊢
    exact absurd hid h0

theorem inference_failure_yields_error_sentinel_record_witness :
    (performScanSettle (run initState [Act.toggle, Act.scan (some (some "img"))])
        ApiOutcome.timeout).locked = false ∧
    (patchResult 0 (solveProblemFromImage ApiOutcome.timeout)
        (newScanResult 0 "img")).text = "Error" := by
  have h := inference_failure_yields_error_sentinel_record
    (run initState [Act.toggle, Act.scan (some (some "img"))]) 0
    ApiOutcome.timeout rfl rfl (by decide)
  exact ⟨h.1, (h.2 _ (by decide) rfl).2.1⟩

/-- C2: over every interleaving of toggles, manual/timer scan triggers,
stabilization firings, settles and ticks, at most one history record is
pending (`loading = true`) at any instant. -/
theorem at_most_one_pending_record (acts : List Act) :
    (run initState acts).results.countP (fun r => r.loading) ≤ 1 := by
  have h := inv_run acts initState inv_init
  rw [h.2.1]
  split <;> omega

/-- C3: a `requestScan()` arriving while the lock is held leaves the history
and the countdown unchanged (src/types.ts lines 43-46: the overlap guard
returns before capture, before record creation and before the countdown
reset). -/
theorem locked_scan_is_noop (s : AppState) (cam : Option (Option String))
    (h : s.locked = true) :
    (performScan s cam).1.results = s.results ∧
    (performScan s cam).1.timeUntilNextScan = s.timeUntilNextScan := by
  match cam with
  | none => exact ⟨rfl, rfl⟩
  | some frame => constructor <;> simp [performScan, h]

theorem locked_scan_is_noop_witness :
    (performScan { initState with locked := true } (some (some "img"))).1.results =
      ({ initState with locked := true } : AppState).results ∧
    (performScan { initState with locked := true }
        (some (some "img"))).1.timeUntilNextScan =
      ({ initState with locked := true } : AppState).timeUntilNextScan :=
  locked_scan_is_noop { initState with locked := true } (some (some "img")) rfl

/-- C4, counterexample: `performScan` never consults `isActive`.  After
toggling on and off, the state is inactive but the stabilization timeout
scheduled by the first toggle is still outstanding; when it fires with a
frame available (the camera refs stay bound while inactive, so `capture()`
still returns a data URL), a `ScanRecord` is created and the Inference
Client is invoked — not a no-op. -/
theorem inactive_scan_with_frame_creates_record :
    (run initState [Act.toggle, Act.toggle]).isActive = false ∧
    (run initState [Act.toggle, Act.toggle]).pendingStab = [STABILIZE_DELAY_MS] ∧
    (performScan (run initState [Act.toggle, Act.toggle])
        (some (some "data:,"))).1.results.length = 1 ∧
    (performScan (run initState [Act.toggle, Act.toggle])
        (some (some "data:,"))).2.contains (Ev.invokeClient 0) = true ∧
    captureModel true true true "data:," = some "data:," := by
  refine ⟨rfl, rfl, rfl, rfl, rfl⟩

/-- C4 (amended): a `requestScan()` arriving while inactive is a no-op only
because — and only when — frame acquisition yields nothing (`cameraRef`
missing or `capture()` returning `null`); in that case no record is created,
the Inference Client is not invoked, and the state is untouched.  The code
itself performs no `active` check. -/
theorem inactive_scan_without_frame_is_noop (s : AppState)
    (cam : Option (Option String)) (hinactive : s.isActive = false)
    (hnoframe : cam = none ∨ cam = some none) :
    (performScan s cam).1 = s ∧
    ∀ id, Ev.invokeClient id ∉ (performScan s cam).2 := by
  rcases hnoframe with rfl | rfl
  · exact ⟨rfl, fun id h => by simp [performScan] at h⟩
  · constructor
    · show (performScan s (some none)).1 = s
      cases hl : s.locked with
      | true => simp [performScan, hl]
      | false => simp [performScan, hl]
    · intro id hmem
      cases hl : s.locked with
      | true =>
        rw [show (performScan s (some none)).2 = [] from by
          simp [performScan, hl]] at hmem
        simp at hmem
      | false =>
        rw [show (performScan s (some none)).2 = [Ev.captureCall] from by
          simp [performScan, hl]] at hmem
        simp at hmem

theorem inactive_scan_without_frame_is_noop_witness :
    (performScan initState none).1 = initState ∧
    Ev.invokeClient 0 ∉ (performScan initState none).2 := by
  have h := inactive_scan_without_frame_is_noop initState none rfl (Or.inl rfl)
  exact ⟨h.1, h.2 0⟩

/-- C5, counterexample: in a scan that passes the lock check and creates a
record, the event trace is `capture` **before** `lockSet` — the code obtains
the frame first and only then sets the lock (src/types.ts lines 48-51),
contradicting "locked is set to true before the frame is obtained". -/
theorem lock_not_set_before_capture :
    (performScan (run initState [Act.toggle])
        (some (some "img"))).2.contains Ev.lockSet = true ∧
    precedesB (performScan (run initState [Act.toggle])
        (some (some "img"))).2 Ev.lockSet Ev.captureCall = false ∧
    precedesB (performScan (run initState [Act.toggle])
        (some (some "img"))).2 Ev.captureCall Ev.lockSet = true := by
  refine ⟨rfl, rfl, rfl⟩

/-- C5 (amended): in every `requestScan()` that passes the lock check, the
frame is obtained from the Capture Source *first* and the lock is set only
after a frame was successfully acquired; if frame acquisition fails, the
operation aborts with the lock still `false` and no history entry. -/
theorem capture_precedes_lock_and_capture_failure_aborts (s : AppState)
    (cam : Option (Option String)) (h : s.locked = false) :
    ((performScan s cam).2.contains Ev.lockSet = true →
      precedesB (performScan s cam).2 Ev.captureCall Ev.lockSet = true) ∧
    ((cam = none ∨ cam = some none) →
      (performScan s cam).1 = s ∧ (performScan s cam).1.locked = false ∧
      (performScan s cam).1.results = s.results) := by
  constructor
  · intro hmem
    match cam with
    | none => simp [performScan] at hmem
    | some none =>
      have hev : (performScan s (some none)).2 = [Ev.captureCall] := by
        simp [performScan, h]
      rw [hev] at hmem
      exact absurd hmem (by decide)
    | some (some img) =>
      have hev : (performScan s (some (some img))).2 =
          [Ev.captureCall, Ev.lockSet, Ev.insertRecord s.now,
           Ev.resetCountdown, Ev.invokeClient s.now] := by
        simp [performScan, h]
      rw [hev]
      rfl
  · intro hno
    rcases hno with rfl | rfl
    · exact ⟨rfl, h, rfl⟩
    · have heq : (performScan s (some none)).1 = s := by
        simp [performScan, h]
      exact ⟨heq, by rw [heq]; exact h, by rw [heq]⟩

theorem capture_precedes_lock_and_capture_failure_aborts_witness :
    precedesB (performScan initState (some (some "x"))).2
      Ev.captureCall Ev.lockSet = true ∧
    (performScan initState (some none)).1 = initState :=
  ⟨(capture_precedes_lock_and_capture_failure_aborts initState
      (some (some "x")) rfl).1 rfl,
   ((capture_precedes_lock_and_capture_failure_aborts initState
      (some none) rfl).2 (Or.inr rfl)).1⟩

/-- C6: in every reachable state the history is sorted newest-first by
`createdAt` (timestamps non-increasing along the list); a scan inserts at
the front only, never reordering existing records; and a settle (completion
or failure) keeps every record's identity, creation data and position —
only the mutable fields change. -/
theorem history_sorted_and_positions_stable (acts : List Act) :
    List.Pairwise (fun a b => b.timestamp ≤ a.timestamp)
      (run initState acts).results ∧
    (∀ cam, (performScan (run initState acts) cam).1.results =
        (run initState acts).results ∨
      ∃ img, (performScan (run initState acts) cam).1.results =
        newScanResult (run initState acts).now img ::
          (run initState acts).results) ∧
    (∀ out, (performScanSettle (run initState acts) out).results.map
        (fun r => (r.id, r.timestamp, r.imageUrl)) =
      (run initState acts).results.map
        (fun r => (r.id, r.timestamp, r.imageUrl)) ∧
      (performScanSettle (run initState acts) out).results.length =
        (run initState acts).results.length) := by
  have h := inv_run acts initState inv_init
  refine ⟨h.2.2.2.2.1, ?_, ?_⟩
  · intro cam
    rcases performScan_cases (run initState acts) cam with heq | ⟨-, img, heq⟩
    · exact Or.inl (by rw [heq])
    · exact Or.inr ⟨img, by rw [heq]⟩
  · intro out
    exact ⟨performScanSettle_immutable _ out, performScanSettle_length _ out⟩

/-- C7, counterexample: the id is `Date.now().toString()`, so two scans
that start at the same clock value (same millisecond — possible because the
lock is released in a microtask and nothing forces the clock forward
between a settle and the next trigger) produce records with identical ids,
violating uniqueness. -/
theorem duplicate_ids_when_clock_stalls :
    (run initState [Act.toggle, Act.scan (some (some "a")),
        Act.settle ApiOutcome.timeout,
        Act.scan (some (some "b"))]).results.map (fun r => r.id) = [0, 0] ∧
    ¬ List.Pairwise (fun a b => b.id < a.id)
      (run initState [Act.toggle, Act.scan (some (some "a")),
        Act.settle ApiOutcome.timeout,
        Act.scan (some (some "b"))]).results := by
  refine ⟨rfl, by decide⟩

/-- C7 (amended): provided `Date.now()` strictly advances between scan
starts (the `spacedFrom` side condition — `Date.now().toString()` ids are
unique only under that clock assumption), record ids are unique and
assigned in monotonic creation order (strictly decreasing along the
newest-first history); a finalized record is never mutated again by any
further step; and the only mutation any step performs is finalizing a
pending record in place (pending → complete/failed), preserving its
identity and immutable fields. -/
theorem ids_unique_monotone_single_mutation (acts : List Act)
    (h : spacedFrom false acts = true) :
    List.Pairwise (fun a b => b.id < a.id) (run initState acts).results ∧
    (∀ a : Act, ∀ r ∈ (run initState acts).results, r.loading = false →
      r ∈ (stepA (run initState acts) a).results) ∧
    (∀ a : Act, ∀ r' ∈ (stepA (run initState acts) a).results,
      r' ∈ (run initState acts).results ∨ r'.loading = true ∨
      ∃ r ∈ (run initState acts).results, r.loading = true ∧
        r'.loading = false ∧ r'.id = r.id ∧ r'.timestamp = r.timestamp ∧
        r'.imageUrl = r.imageUrl ∧ r'.error = r.error) := by
  obtain ⟨g, hinv, hp, -⟩ :=
    strictInv_run acts false initState ⟨inv_init, by simp [initState], by simp [initState]⟩ h
  exact ⟨hp, fun a => finalized_frozen_step _ hinv hp a,
    fun a => step_results_origin _ hinv hp a⟩

theorem ids_unique_monotone_single_mutation_witness :
    List.Pairwise (fun a b => b.id < a.id)
      (run initState [Act.toggle, Act.scan (some (some "a")),
        Act.settle (ApiOutcome.success (some "B---SPLIT---ok")),
        Act.elapse 5, Act.scan (some (some "b"))]).results :=
  (ids_unique_monotone_single_mutation
    [Act.toggle, Act.scan (some (some "a")),
     Act.settle (ApiOutcome.success (some "B---SPLIT---ok")),
     Act.elapse 5, Act.scan (some (some "b"))] (by decide)).1

/-- C9: toggling from inactive starts the periodic scan interval with the
fixed period P = `AUTO_SCAN_INTERVAL_MS` = 30000 ms and schedules exactly
one stabilization scan with delay `STABILIZE_DELAY_MS` = 1500 ms; toggling
from active cancels the periodic interval and resets the countdown to P. -/
theorem handleToggle_timers (s : AppState) :
    (s.isActive = false →
      (handleToggle s).isActive = true ∧
      (handleToggle s).scanTimer = some AUTO_SCAN_INTERVAL_MS ∧
      (handleToggle s).pendingStab = s.pendingStab ++ [STABILIZE_DELAY_MS]) ∧
    (s.isActive = true →
      (handleToggle s).isActive = false ∧
      (handleToggle s).scanTimer = none ∧
      (handleToggle s).timeUntilNextScan = AUTO_SCAN_INTERVAL_MS) ∧
    AUTO_SCAN_INTERVAL_MS = 30000 ∧ STABILIZE_DELAY_MS = 1500 := by
  refine ⟨?_, ?_, rfl, rfl⟩ <;> intro h <;> simp [handleToggle, h]

theorem handleToggle_timers_witness :
    (handleToggle initState).isActive = true ∧
    (handleToggle initState).scanTimer = some AUTO_SCAN_INTERVAL_MS ∧
    (handleToggle initState).pendingStab =
      initState.pendingStab ++ [STABILIZE_DELAY_MS] ∧
    (handleToggle (handleToggle initState)).scanTimer = none ∧
    (handleToggle (handleToggle initState)).timeUntilNextScan =
      AUTO_SCAN_INTERVAL_MS := by
  have h1 := (handleToggle_timers initState).1 rfl
  have h2 := (handleToggle_timers (handleToggle initState)).2.1 h1.1
  exact ⟨h1.1, h1.2.1, h1.2.2, h2.2.1, h2.2.2⟩

/-- C10: the Inference Client never rejects — it is a total function of the
remote behaviour, converting every internal failure (error, safety block,
timeout) into a resolved `{text, reasoning, sources}` result whose text is
the `"Error"` sentinel — so the orchestrator's rejection branch is never
taken and no reachable `ScanRecord` ever has its `error` field set. -/
theorem solve_never_rejects_no_error_field :
    (∀ out : ApiOutcome, out.isFailure = true →
      (solveProblemFromImage out).text = "Error" ∧
      (solveProblemFromImage out).sources = []) ∧
    (∀ acts : List Act, ∀ r ∈ (run initState acts).results,
      r.error = none) := by
  constructor
  · intro out h
    exact ⟨solve_failure_text out h, by
      cases out with
      | success rt => simp [ApiOutcome.isFailure] at h
      | apiError m => rfl
      | timeout => rfl⟩
  · intro acts r hr
    exact (inv_run acts initState inv_init).2.2.2.1 r hr

theorem solve_never_rejects_no_error_field_witness :
    (solveProblemFromImage ApiOutcome.timeout).text = "Error" ∧
    (newScanResult 0 "i").error = none := by
  have h := solve_never_rejects_no_error_field
  exact ⟨(h.1 ApiOutcome.timeout rfl).1,
    h.2 [Act.toggle, Act.scan (some (some "i"))] (newScanResult 0 "i")
      (by decide)⟩

/-! ## Shape of the validated part_000 answers (C8) -/

theorem upperChar_of_valid (c : Char) (hv : validChar c = true)
    (hw : (upperChar c).isWhitespace = false) :
    upperValidChar (upperChar c) = true := by
  unfold validChar answerChar at hv
  simp only [Bool.or_eq_true, beq_iff_eq] at hv
  rcases hv with (hv | hv) | hv
  · have hmem : c ∈ ['A', 'B', 'C', 'D', 'E', 'a', 'b', 'c', 'd', 'e',
        '1', '2', '3', '4', '5'] := by
      simpa using hv
    fin_cases hmem <;> decide
  · subst hv; decide
  · have hmem : c ∈ [' ', '\t', '\r', '\n'] := by
      revert hv
      unfold Char.isWhitespace
      simp only [Bool.or_eq_true, decide_eq_true_eq]
      intro hv
      rcases hv with ((rfl | rfl) | rfl) | rfl <;> simp
    exfalso
    fin_cases hmem <;> simp_all [upperChar]

theorem upperChar_of_answerChar (c : Char) (ha : answerChar c = true) :
    allowedOutChar (upperChar c) = true := by
  unfold answerChar at ha
  have hmem : c ∈ ['A', 'B', 'C', 'D', 'E', 'a', 'b', 'c', 'd', 'e',
      '1', '2', '3', '4', '5'] := by
    simpa using ha
  fin_cases hmem <;> decide

theorem splitComma_ne_nil (w : List Char) : splitComma w ≠ [] := by
  cases w with
  | nil => simp [splitComma]
  | cons c rest =>
    unfold splitComma
    split
    · simp
    · split <;> simp

theorem mem_splitComma (w : List Char) :
    ∀ g ∈ splitComma w, ∀ c ∈ g, c ∈ w := by
  induction w with
  | nil =>
    intro g hg c hc
    simp [splitComma] at hg
    subst hg
    simp at hc
  | cons c0 rest ih =>
    intro g hg c hc
    unfold splitComma at hg
    by_cases h0 : c0 == ','
    · rw [if_pos h0] at hg
      rcases List.mem_cons.mp hg with rfl | hg
      · simp at hc
      · exact List.mem_cons_of_mem _ (ih g hg c hc)
    · rw [if_neg h0] at hg
      cases hS : splitComma rest with
      | nil => exact absurd hS (splitComma_ne_nil rest)
      | cons g1 gs =>
        rw [hS] at hg
        rcases List.mem_cons.mp hg with rfl | hg
        · rcases List.mem_cons.mp hc with rfl | hc
          · exact List.mem_cons_self _ _
          · exact List.mem_cons_of_mem _
              (ih g1 (hS ▸ List.mem_cons_self g1 gs) c hc)
        · exact List.mem_cons_of_mem _
            (ih g (hS ▸ List.mem_cons_of_mem g1 hg) c hc)

/-- Total character count of a list of chunks. -/
def sumLen (gs : List (List Char)) : Nat :=
  (gs.map List.length).sum

theorem sumLen_splitComma (w : List Char) :
    sumLen (splitComma w) ≤ w.length := by
  induction w with
  | nil => simp [splitComma, sumLen]
  | cons c0 rest ih =>
    unfold splitComma
    by_cases h0 : c0 == ','
    · rw [if_pos h0]
      simp only [sumLen, List.map_cons, List.sum_cons, List.length_nil,
        List.length_cons] at ih ⊢
      omega
    · rw [if_neg h0]
      cases hS : splitComma rest with
      | nil => exact absurd hS (splitComma_ne_nil rest)
      | cons g1 gs =>
        rw [hS] at ih
        simp only [sumLen, List.map_cons, List.sum_cons, List.length_cons] at ih ⊢
        omega

theorem length_splitComma (w : List Char) :
    (splitComma w).length ≤ w.length + 1 := by
  induction w with
  | nil => simp [splitComma]
  | cons c0 rest ih =>
    unfold splitComma
    by_cases h0 : c0 == ','
    · rw [if_pos h0]
      simp only [List.length_cons]
      omega
    · rw [if_neg h0]
      cases hS : splitComma rest with
      | nil => exact absurd hS (splitComma_ne_nil rest)
      | cons g1 gs =>
        rw [hS] at ih
        simp only [List.length_cons] at ih ⊢
        omega

theorem mem_joinCS (gs : List (List Char)) :
    ∀ c ∈ joinCS gs, (∃ g ∈ gs, c ∈ g) ∨ c = ',' ∨ c = ' ' := by
  induction gs with
  | nil => intro c hc; simp [joinCS] at hc
  | cons g tail ih =>
    intro c hc
    cases tail with
    | nil =>
      simp only [joinCS] at hc
      exact Or.inl ⟨g, List.mem_cons_self _ _, hc⟩
    | cons g2 gs2 =>
      simp only [joinCS] at hc
      rcases List.mem_append.mp hc with hc | hc
      · exact Or.inl ⟨g, List.mem_cons_self _ _, hc⟩
      · rcases List.mem_cons.mp hc with rfl | hc
        · exact Or.inr (Or.inl rfl)
        · rcases List.mem_cons.mp hc with rfl | hc
          · exact Or.inr (Or.inr rfl)
          · rcases ih c hc with ⟨g', hg', hcg'⟩ | h
            · exact Or.inl ⟨g', List.mem_cons_of_mem _ hg', hcg'⟩
            · exact Or.inr h

theorem length_joinCS (gs : List (List Char)) :
    (joinCS gs).length ≤ sumLen gs + 2 * gs.length := by
  induction gs with
  | nil => simp [joinCS, sumLen]
  | cons g tail ih =>
    cases tail with
    | nil => simp [joinCS, sumLen]
    | cons g2 gs2 =>
      show (g ++ ',' :: ' ' :: joinCS (g2 :: gs2)).length ≤ _
      simp only [List.length_append, List.length_cons, sumLen, List.map_cons,
        List.sum_cons] at ih ⊢
      omega

theorem sumLen_filter_le (p : List Char → Bool) (gs : List (List Char)) :
    sumLen (gs.filter p) ≤ sumLen gs := by
  induction gs with
  | nil => simp [sumLen]
  | cons g tail ih =>
    simp only [List.filter_cons]
    split
    · simp only [sumLen, List.map_cons, List.sum_cons] at ih ⊢
      omega
    · simp only [sumLen, List.map_cons, List.sum_cons] at ih ⊢
      omega

theorem mk_toList (X : List Char) : (String.mk X).toList = X := rfl

theorem mk_length (X : List Char) : (String.mk X).length = X.length := rfl

theorem normalizeAnswer_shape (l : List Char) (hall : l.all validChar = true)
    (hlen : l.length ≤ 15) :
    (∀ c ∈ normalizeAnswer l, allowedOutChar c = true) ∧
    (normalizeAnswer l).length ≤ 47 := by
  unfold normalizeAnswer
  set w := (l.map upperChar).filter (fun c => !c.isWhitespace) with hw
  constructor
  · intro c hc
    rcases mem_joinCS _ c hc with ⟨g, hg, hcg⟩ | rfl | rfl
    · have hg' : g ∈ splitComma w := List.mem_of_mem_filter hg
      have hcw : c ∈ w := mem_splitComma w g hg' c hcg
      rw [hw] at hcw
      rcases List.mem_filter.mp hcw with ⟨hcmap, hnws⟩
      rcases List.mem_map.mp hcmap with ⟨c0, hc0, rfl⟩
      have hv : validChar c0 = true := List.all_eq_true.mp hall c0 hc0
      have hnw : (upperChar c0).isWhitespace = false := by
        simpa using hnws
      unfold allowedOutChar
      rw [upperChar_of_valid c0 hv hnw]
      rfl
    · decide
    · decide
  · have h1 := length_joinCS ((splitComma w).filter (fun g => !g.isEmpty))
    have h2 := sumLen_filter_le (fun g => !g.isEmpty) (splitComma w)
    have h3 := sumLen_splitComma w
    have h4 := List.length_filter_le (fun g => !g.isEmpty) (splitComma w)
    have h5 := length_splitComma w
    have h6 : w.length ≤ l.length := by
      rw [hw]
      exact le_trans (List.length_filter_le _ _) (le_of_eq (List.length_map _ _))
    omega

theorem rescueMatch_allowed (l : List Char) (c : Char)
    (h : rescueMatch l = some c) : allowedOutChar c = true := by
  cases l with
  | nil => simp [rescueMatch] at h
  | cons c0 rest =>
    simp only [rescueMatch] at h
    by_cases ha : answerChar c0 = true
    · rw [if_pos ha] at h
      cases rest with
      | nil =>
        injection h with h
        subst h
        exact upperChar_of_answerChar c0 ha
      | cons d tail =>
        have h2 : (if d.isWhitespace = true then some (upperChar c0)
            else none) = some c := h
        by_cases hd : d.isWhitespace = true
        · rw [if_pos hd] at h2
          injection h2 with h2
          subst h2
          exact upperChar_of_answerChar c0 ha
        · rw [if_neg hd] at h2
          simp at h2
    · rw [if_neg ha] at h
      simp at h

/-- C8, counterexample: the Inference Client the orchestrator imports
(`src/services/geminiService.ts`) performs **no** shape validation and has
no `ERROR` fallback for malformed answers: a raw model output whose answer
part is a 37-character sentence is returned verbatim as `answerText` (only
bold markers and periods would be stripped) — it is neither a short token
over the answer alphabet nor the `ERROR` sentinel. -/
theorem gemini_client_returns_unvalidated_text :
    (solveProblemFromImage (ApiOutcome.success
        (some "THIS IS A LONG SENTENCE NOT AN ANSWER---SPLIT---reason"))).text =
      "THIS IS A LONG SENTENCE NOT AN ANSWER" ∧
    (solveProblemFromImage (ApiOutcome.success
        (some "THIS IS A LONG SENTENCE NOT AN ANSWER---SPLIT---reason"))).text ≠
      "ERROR" ∧
    15 < (solveProblemFromImage (ApiOutcome.success
        (some "THIS IS A LONG SENTENCE NOT AN ANSWER---SPLIT---reason"))).text.length ∧
    (solveProblemFromImage (ApiOutcome.success
        (some "THIS IS A LONG SENTENCE NOT AN ANSWER---SPLIT---reason"))).text.toList.all
      allowedOutChar = false := by
  refine ⟨rfl, by decide, by decide, by decide⟩

/-- C8 (amended): only the part_000 variant of `solveProblemFromImage`
normalizes and validates the short-answer shape: for every raw inference
output its answer pipeline returns `UNKNOWN`, the `ERROR` sentinel, or a
comma-normalized token over the answer alphabet `A`–`E`/`1`–`5` (together
with `", "` separators) of bounded length.  The geminiService.ts variant
used by the orchestrator returns the cleaned raw text unvalidated. -/
theorem part000_answer_short_or_error (fullText : String) :
    part000Answer fullText = "UNKNOWN" ∨ part000Answer fullText = "ERROR" ∨
    ((part000Answer fullText).toList.all allowedOutChar = true ∧
      (part000Answer fullText).length ≤ 47) := by
  simp only [part000Answer]
  split
  · exact Or.inl rfl
  · split
    · next hvs =>
      right; right
      simp only [Bool.and_eq_true, decide_eq_true_eq] at hvs
      have hshape := normalizeAnswer_shape (part000RawText fullText).toList
        hvs.1.2 hvs.2
      rw [mk_toList, mk_length]
      exact ⟨List.all_eq_true.mpr hshape.1, hshape.2⟩
    · split
      · next c hrm =>
        right; right
        rw [mk_toList, mk_length]
        refine ⟨?_, by simp⟩
        simp only [List.all_cons, List.all_nil, Bool.and_true]
        exact rescueMatch_allowed _ c hrm
      · exact Or.inr (Or.inl rfl)
